import Mathlib

/-!
Verification of the Merkle-certificate generator
(`certora/checker/create_certificate.py` of morpho-org/universal-rewards-distributor).

The script reconstructs a Merkle tree from per-leaf inclusion proofs and
serialises it into a "certificate".  We embed the script shallowly:

* Hashes and byte strings are `List Nat` (one `Nat` per byte).  The Python
  code represents hashes as canonical lowercase hex strings and compares
  them with string `<=`; on canonical encodings this order coincides with
  the lexicographic order on the underlying bytes, which is what `hashLe`
  implements.
* The base hash function (keccak-256, reached through
  `w3.solidity_keccak`) is out of scope per the specification ("treated as
  an opaque cryptographic hash function").  All definitions are
  parametrised by a function `K : Bytes → Hash` standing for keccak-256 on
  byte strings; `solidity_keccak (["bytes32","bytes32"], [l, r])` is keccak
  of the 64-byte concatenation and `solidity_keccak (["bytes"], [b])` is
  keccak of `b`, so both reduce to `K` applied to explicit byte strings.
* The module-level Python dicts become the fields of `St`; dict update is
  modelled by prepending to an association list read through `lookupH`
  (latest binding wins, exactly like dict assignment).
* The recursive `walk` has no termination measure in Python (it dies with
  `RecursionError` on cyclic data), so the embedding takes explicit fuel;
  uncaught Python exceptions (`KeyError`, `RecursionError`) become the
  `Except` error results of `walk`.
-/

/-- A byte string: one `Nat` (intended `< 256`) per byte. -/
abbrev Bytes : Type := List Nat

/-- A hash value, as the byte string of its canonical encoding. -/
abbrev Hash : Type := List Nat

/-- First-match association-list lookup: the model of reading a Python
dict in which assignment prepends the new binding. -/
def lookupH {α : Type} (k : Hash) : List (Hash × α) → Option α
  | [] => none
  | (k', v) :: rest => if k' = k then some v else lookupH k rest

/-- Lexicographic byte order; the order Python's string `<=` induces on
canonically (lowercase hex, fixed width) encoded hashes. -/
def hashLe : Hash → Hash → Bool
  | [], _ => true
  | _ :: _, [] => false
  | a :: as, b :: bs => if a < b then true else if b < a then false else hashLe as bs

/-- Big-endian fixed-width byte encoding of a natural number (`k` bytes). -/
def beBytes : Nat → Nat → Bytes
  | 0, _ => []
  | k + 1, n => beBytes k (n / 256) ++ [n % 256]

/-- Left-pad a byte string with zero bytes to a 32-byte ABI slot; the
behaviour of `eth_abi.encode` on an `address` argument. -/
def leftPad32 (bs : Bytes) : Bytes :=
  List.replicate (32 - bs.length) 0 ++ bs

/-- Model of `eth_abi.encode (["address", "address"], [a, r])`: two 32-byte slots. -/
def abiEncode2 (a r : Bytes) : Bytes :=
  leftPad32 a ++ leftPad32 r

/-- Model of `eth_abi.encode (["address", "address", "uint256"], [a, r, m])`:
three 32-byte slots, the integer big-endian. -/
def abiEncode3 (a r : Bytes) (m : Nat) : Bytes :=
  leftPad32 a ++ leftPad32 r ++ beBytes 32 m

/-- The script function `hash_node`: keccak of the 64-byte concatenation of the
two child hashes (`solidity_keccak (["bytes32", "bytes32"], ...)`). -/
def hash_node (K : Bytes → Hash) (left_hash right_hash : Hash) : Hash :=
  K (left_hash ++ right_hash)

/-- The script function `hash_leaf`: double keccak of the ABI encoding of
`(address, reward, amount)`. -/
def hash_leaf (K : Bytes → Hash) (address reward : Bytes) (amount : Nat) : Hash :=
  K (K (abiEncode3 address reward amount))

/-- The script function `hash_id`: keccak of the ABI encoding of `(addr, reward)`. -/
def hash_id (K : Bytes → Hash) (addr reward : Bytes) : Hash :=
  K (abiEncode2 addr reward)

/-- The canonically ordered node-hash computation performed inside
`populate`'s loop (lines 52-58 of the script): order the unordered pair
`{a, b}` by byte value, then hash the concatenation. -/
def nodeHashCanon (K : Bytes → Hash) (a b : Hash) : Hash :=
  if hashLe a b then hash_node K a b else hash_node K b a

/-- The module-level mutable dicts of the script. -/
structure St where
  hash_to_id : List (Hash × Hash)
  hash_to_address : List (Hash × Bytes)
  hash_to_reward : List (Hash × Bytes)
  hash_to_value : List (Hash × Nat)
  left : List (Hash × Hash)
  right : List (Hash × Hash)
deriving DecidableEq

/-- The initial (empty-dict) state. -/
def emptySt : St := ⟨[], [], [], [], [], []⟩

/-- The `for proofElement in proof` loop of `populate`. -/
def populateLoop (K : Bytes → Hash) : Hash → List Hash → St → St
  | _, [], st => st
  | computedHash, proofElement :: rest, st =>
    let leftHash := if hashLe computedHash proofElement then computedHash else proofElement
    let rightHash := if hashLe computedHash proofElement then proofElement else computedHash
    let newHash := hash_node K leftHash rightHash
    populateLoop K newHash rest
      { st with
        hash_to_id := (newHash, newHash) :: st.hash_to_id
        left := (newHash, leftHash) :: st.left
        right := (newHash, rightHash) :: st.right }

/-- The script function `populate`: record the leaf metadata, then walk the
proof path towards the root recording each parent's children. -/
def populate (K : Bytes → Hash) (addr reward : Bytes) (amount : Nat)
    (proof : List Hash) (st : St) : St :=
  let computedHash := hash_leaf K addr reward amount
  populateLoop K computedHash proof
    { st with
      hash_to_id := (computedHash, hash_id K addr reward) :: st.hash_to_id
      hash_to_address := (computedHash, addr) :: st.hash_to_address
      hash_to_reward := (computedHash, reward) :: st.hash_to_reward
      hash_to_value := (computedHash, amount) :: st.hash_to_value }

/-- One input record: an `(address, rewardToken)` pair with its amount and
proof path, as fed to `populate` by the main loop. -/
structure Record where
  addr : Bytes
  reward : Bytes
  amount : Nat
  proof : List Hash
deriving DecidableEq

/-- The main loop: feed every record to `populate` in enumeration order. -/
def runRecords (K : Bytes → Hash) (records : List Record) (st : St) : St :=
  records.foldl (fun st r => populate K r.addr r.reward r.amount r.proof st) st

/-- A `leaf` entry of the certificate. -/
structure LeafEntry where
  addr : Bytes
  reward : Bytes
  value : Nat
deriving DecidableEq

/-- A `node` entry of the certificate. -/
structure NodeEntry where
  id : Hash
  left : Hash
  right : Hash
deriving DecidableEq

/-- The two sequences `walk` appends to. -/
structure WalkCert where
  leaf : List LeafEntry
  node : List NodeEntry
deriving DecidableEq

/-- The empty pair of sequences the main program starts from. -/
def emptyWalkCert : WalkCert := ⟨[], []⟩

/-- How a `walk` run aborts: `recursionLimit` models Python's
`RecursionError` on unbounded recursion, `keyError h` an uncaught
`KeyError` raised by a dict subscript with missing key `h`. -/
inductive WalkErr where
  | recursionLimit : WalkErr
  | keyError : Hash → WalkErr
deriving DecidableEq

/-- The script function `walk`, with explicit fuel for the recursion.  The
branch structure and the order of dict subscripts follow the source: an
internal node (present in `left`) first walks its left child, then reads
`right`, walks the right child and appends the node entry built from
`hash_to_id` of the two children; otherwise the leaf metadata dicts are
read (address first) and a leaf entry is appended. -/
def walk (st : St) : Nat → Hash → WalkCert → Except WalkErr WalkCert
  | 0, _, _ => .error .recursionLimit
  | fuel + 1, node, cert =>
    match lookupH node st.left with
    | some l =>
      match walk st fuel l cert with
      | .error e => .error e
      | .ok cert1 =>
        match lookupH node st.right with
        | none => .error (.keyError node)
        | some r =>
          match walk st fuel r cert1 with
          | .error e => .error e
          | .ok cert2 =>
            match lookupH l st.hash_to_id with
            | none => .error (.keyError l)
            | some idl =>
              match lookupH r st.hash_to_id with
              | none => .error (.keyError r)
              | some idr =>
                .ok { cert2 with node := cert2.node ++ [⟨node, idl, idr⟩] }
    | none =>
      match lookupH node st.hash_to_address with
      | none => .error (.keyError node)
      | some a =>
        match lookupH node st.hash_to_reward with
        | none => .error (.keyError node)
        | some r =>
          match lookupH node st.hash_to_value with
          | none => .error (.keyError node)
          | some v => .ok { cert with leaf := cert.leaf ++ [⟨a, r, v⟩] }

/-- The output document of the script. -/
structure Certificate where
  root : Hash
  leaf : List LeafEntry
  node : List NodeEntry
  leafLength : Nat
  nodeLength : Nat
deriving DecidableEq

/-- The whole pipeline of the script's main block: populate the state
from all records, walk from the declared root starting with empty
sequences, then attach the root and the two lengths. -/
def buildCertificate (K : Bytes → Hash) (fuel : Nat) (root : Hash)
    (records : List Record) : Except WalkErr Certificate :=
  match walk (runRecords K records emptySt) fuel root emptyWalkCert with
  | .error e => .error e
  | .ok c => .ok ⟨root, c.leaf, c.node, c.leaf.length, c.node.length⟩

/-- The tree `walk` implicitly traverses: a leaf carries the emitted
metadata, an internal node carries its own hash, the two `hash_to_id`
values emitted for its children, and the two subtrees. -/
inductive MTree where
  | leaf (addr reward : Bytes) (value : Nat) : MTree
  | node (id lid rid : Hash) (l r : MTree) : MTree
deriving DecidableEq

/-- The leaf entries of a tree in traversal (left-before-right) order. -/
def postLeaves : MTree → List LeafEntry
  | .leaf a r v => [⟨a, r, v⟩]
  | .node _ _ _ l r => postLeaves l ++ postLeaves r

/-- The node entries of a tree in post order: both subtrees' entries
strictly before the node's own entry, left subtree before right. -/
def postNodes : MTree → List NodeEntry
  | .leaf _ _ _ => []
  | .node i il ir l r => postNodes l ++ postNodes r ++ [⟨i, il, ir⟩]

/-- Reconstruct the tree `walk` traverses from hash `h`, succeeding under
exactly the conditions under which `walk` succeeds. -/
def toTree (st : St) : Nat → Hash → Option MTree
  | 0, _ => none
  | fuel + 1, h =>
    match lookupH h st.left with
    | some l =>
      match lookupH h st.right with
      | none => none
      | some r =>
        match toTree st fuel l, toTree st fuel r with
        | some tl, some tr =>
          match lookupH l st.hash_to_id, lookupH r st.hash_to_id with
          | some il, some ir => some (.node h il ir tl tr)
          | _, _ => none
        | _, _ => none
    | none =>
      match lookupH h st.hash_to_address, lookupH h st.hash_to_reward,
          lookupH h st.hash_to_value with
      | some a, some r, some v => some (.leaf a r v)
      | _, _, _ => none

/-- Walking upward through a list of node entries: `Reaches ns x root`
holds when from identifier `x` one can repeatedly step to the `id` of a
node entry whose `left` or `right` field equals the current identifier,
ending at `root`. -/
inductive Reaches (ns : List NodeEntry) : Hash → Hash → Prop
  | refl (h : Hash) : Reaches ns h h
  | step {x root : Hash} (e : NodeEntry) (he : e ∈ ns)
      (hx : e.left = x ∨ e.right = x) (h : Reaches ns e.id root) : Reaches ns x root

/-- State invariant: every hash recorded as an internal node maps to
itself in `hash_to_id` (as `populate` writes it on line 59). -/
def idCoherent (st : St) : Prop :=
  ∀ p ∈ st.left, lookupH p.1 st.hash_to_id = some p.1

/-- State invariant: at a hash that is not an internal node but carries
leaf metadata, `hash_to_id` holds `hash_id` of the recorded address and
reward token (as `populate` writes it on line 48). -/
def leafIdCoherent (K : Bytes → Hash) (st : St) : Prop :=
  ∀ p ∈ st.hash_to_address, lookupH p.1 st.left = none →
    lookupH p.1 st.hash_to_id =
      (lookupH p.1 st.hash_to_address).bind fun a =>
        (lookupH p.1 st.hash_to_reward).map fun r => hash_id K a r

/-- The combined leaf metadata readable at hash `h`. -/
def leafData (st : St) (h : Hash) : Option LeafEntry :=
  (lookupH h st.hash_to_address).bind fun a =>
    (lookupH h st.hash_to_reward).bind fun r =>
      (lookupH h st.hash_to_value).map fun v => ⟨a, r, v⟩

/-- Predicate `optHolds P o`: holds when `o` is `none` or its value satisfies `P`. -/
def optHolds {α : Type} (P : α → Prop) : Option α → Prop
  | none => True
  | some a => P a

instance {α : Type} (P : α → Prop) [DecidablePred P] :
    (o : Option α) → Decidable (optHolds P o)
  | none => .isTrue trivial
  | some a => inferInstanceAs (Decidable (P a))

/-- State invariant: leaf metadata stored at hash `h` hashes back to `h`
(`populate` stores it under `hash_leaf` of exactly these fields). -/
def leafCoherent (K : Bytes → Hash) (st : St) : Prop :=
  ∀ p ∈ st.hash_to_address,
    optHolds (fun ℓ => hash_leaf K ℓ.addr ℓ.reward ℓ.value = p.1) (leafData st p.1)

/-- An association list is functional when two bindings of the same key
always carry the same value. -/
def FunctionalL {α : Type} (l : List (Hash × α)) : Prop :=
  ∀ p ∈ l, ∀ q ∈ l, p.1 = q.1 → p.2 = q.2

/-- All six dicts of a state are functional: no key was ever rebound to a
different value.  For states built by `populate` this says the input
records never disagree (no hash collision and no conflicting metadata). -/
def stFunctional (st : St) : Prop :=
  FunctionalL st.hash_to_id ∧ FunctionalL st.hash_to_address ∧
    FunctionalL st.hash_to_reward ∧ FunctionalL st.hash_to_value ∧
    FunctionalL st.left ∧ FunctionalL st.right

instance (st : St) : Decidable (idCoherent st) := by
  unfold idCoherent; exact inferInstance

instance (K : Bytes → Hash) (st : St) : Decidable (leafIdCoherent K st) := by
  unfold leafIdCoherent; exact inferInstance

instance (K : Bytes → Hash) (st : St) : Decidable (leafCoherent K st) := by
  unfold leafCoherent; exact inferInstance

instance {α : Type} [DecidableEq α] (l : List (Hash × α)) : Decidable (FunctionalL l) := by
  unfold FunctionalL; exact inferInstance

instance (st : St) : Decidable (stFunctional st) := by
  unfold stFunctional; exact inferInstance

instance {ε α : Type} [DecidableEq ε] [DecidableEq α] : DecidableEq (Except ε α)
  | .error e, .error e' =>
    if h : e = e' then .isTrue (congrArg Except.error h)
    else .isFalse fun hc => h (by injection hc)
  | .error _, .ok _ => .isFalse fun hc => Except.noConfusion hc
  | .ok _, .error _ => .isFalse fun hc => Except.noConfusion hc
  | .ok a, .ok a' =>
    if h : a = a' then .isTrue (congrArg Except.ok h)
    else .isFalse fun hc => h (by injection hc)

/-- Two states with identical dict read behaviour. -/
def stEquiv (s t : St) : Prop :=
  (∀ h, lookupH h s.hash_to_id = lookupH h t.hash_to_id) ∧
    (∀ h, lookupH h s.hash_to_address = lookupH h t.hash_to_address) ∧
    (∀ h, lookupH h s.hash_to_reward = lookupH h t.hash_to_reward) ∧
    (∀ h, lookupH h s.hash_to_value = lookupH h t.hash_to_value) ∧
    (∀ h, lookupH h s.left = lookupH h t.left) ∧
    (∀ h, lookupH h s.right = lookupH h t.right)

/-- Modelled from the spec: the minimal big-endian byte string of a
natural number ("canonically encode ... unsigned 256-bit integer"),
computed with enough structural fuel for any 256-bit value. -/
def minBytes : Nat → Nat → Bytes
  | 0, _ => []
  | fuel + 1, n => if n = 0 then [] else minBytes fuel (n / 256) ++ [n % 256]

/-- Modelled from the spec: a 256-bit unsigned integer "left-padded to
its canonical width" of 32 bytes. -/
def specEncodeWord (n : Nat) : Bytes :=
  List.replicate (32 - (minBytes 32 n).length) 0 ++ minBytes 32 n

/-- Modelled from the spec: a 20-byte address left-padded to its 32-byte
canonical width. -/
def specEncodeAddress (a : Bytes) : Bytes :=
  List.replicate 12 0 ++ a

/-- Modelled from the spec: `leafHash` as §4.1 words it — the fixed-width
concatenation of the padded address, padded reward-token address and
256-bit amount, hashed once and then hashed again ("double hashing"). -/
def specLeafHash (K : Bytes → Hash) (address rewardToken : Bytes) (amount : Nat) : Hash :=
  K (K (specEncodeAddress address ++ specEncodeAddress rewardToken ++ specEncodeWord amount))

/-- The `(parentHash, leftHash, rightHash)` triples computed along one
proof path, in loop order; they determine every dict write of
`populate`'s loop independently of the ambient state. -/
def chainTriples (K : Bytes → Hash) : Hash → List Hash → List (Hash × Hash × Hash)
  | _, [] => []
  | computedHash, proofElement :: rest =>
    let leftHash := if hashLe computedHash proofElement then computedHash else proofElement
    let rightHash := if hashLe computedHash proofElement then proofElement else computedHash
    let newHash := hash_node K leftHash rightHash
    (newHash, leftHash, rightHash) :: chainTriples K newHash rest

/-- The chain triples of one record. -/
def recTriples (K : Bytes → Hash) (r : Record) : List (Hash × Hash × Hash) :=
  chainTriples K (hash_leaf K r.addr r.reward r.amount) r.proof

/-- All bindings one record prepends to `hash_to_id` (newest first). -/
def recIdWrites (K : Bytes → Hash) (r : Record) : List (Hash × Hash) :=
  ((recTriples K r).map fun s => (s.1, s.1)).reverse ++
    [(hash_leaf K r.addr r.reward r.amount, hash_id K r.addr r.reward)]

/-- All bindings one record prepends to `left` (newest first). -/
def recLeftWrites (K : Bytes → Hash) (r : Record) : List (Hash × Hash) :=
  ((recTriples K r).map fun s => (s.1, s.2.1)).reverse

/-- All bindings one record prepends to `right` (newest first). -/
def recRightWrites (K : Bytes → Hash) (r : Record) : List (Hash × Hash) :=
  ((recTriples K r).map fun s => (s.1, s.2.2)).reverse

/-- The binding one record prepends to `hash_to_address`. -/
def recAddrWrites (K : Bytes → Hash) (r : Record) : List (Hash × Bytes) :=
  [(hash_leaf K r.addr r.reward r.amount, r.addr)]

/-- The binding one record prepends to `hash_to_reward`. -/
def recRewardWrites (K : Bytes → Hash) (r : Record) : List (Hash × Bytes) :=
  [(hash_leaf K r.addr r.reward r.amount, r.reward)]

/-- The binding one record prepends to `hash_to_value`. -/
def recValueWrites (K : Bytes → Hash) (r : Record) : List (Hash × Nat) :=
  [(hash_leaf K r.addr r.reward r.amount, r.amount)]

/-- Concrete example address (20 bytes). -/
def exAddr1 : Bytes := List.replicate 20 1

/-- Concrete example reward-token address (20 bytes). -/
def exRew1 : Bytes := List.replicate 20 2

/-- Concrete example address (20 bytes). -/
def exAddr2 : Bytes := List.replicate 20 3

/-- Concrete example reward-token address (20 bytes). -/
def exRew2 : Bytes := List.replicate 20 4

/-- Concrete example address (20 bytes). -/
def exAddr3 : Bytes := List.replicate 20 6

/-- Concrete example reward-token address (20 bytes). -/
def exRew3 : Bytes := List.replicate 20 8

/-- A concrete instantiation of the opaque base hash: an injective-enough
table on the inputs occurring in the two-leaf example tree.  Leaf 1
hashes to `[11]`, leaf 2 to `[21]`, their identifiers to `[50]` and
`[51]`, and the parent of `[11]` and `[21]` to `[40]`. -/
def toyK : Bytes → Hash := fun x =>
  if x = abiEncode3 exAddr1 exRew1 5 then [10]
  else if x = [10] then [11]
  else if x = abiEncode3 exAddr2 exRew2 7 then [20]
  else if x = [20] then [21]
  else if x = abiEncode2 exAddr1 exRew1 then [50]
  else if x = abiEncode2 exAddr2 exRew2 then [51]
  else if x = [11, 21] then [40]
  else [99]

/-- Record 1 of the example tree: leaf 1 with sibling `[21]` (leaf 2). -/
def exRec1 : Record := ⟨exAddr1, exRew1, 5, [[21]]⟩

/-- Record 2 of the example tree: leaf 2 with sibling `[11]` (leaf 1). -/
def exRec2 : Record := ⟨exAddr2, exRew2, 7, [[11]]⟩

/-- A concrete base hash exhibiting a collision on internal nodes: the
pairs `([11], [30])` and `([21], [31])` both hash to `[40]`, and a third
leaf hashes to `[31]` so that the colliding tree is still walkable. -/
def toyK2 : Bytes → Hash := fun x =>
  if x = abiEncode3 exAddr1 exRew1 5 then [10]
  else if x = [10] then [11]
  else if x = abiEncode3 exAddr2 exRew2 7 then [20]
  else if x = [20] then [21]
  else if x = abiEncode3 exAddr3 exRew3 9 then [22]
  else if x = [22] then [31]
  else if x = [11, 30] then [40]
  else if x = [21, 31] then [40]
  else if x = abiEncode2 exAddr1 exRew1 then [50]
  else if x = abiEncode2 exAddr2 exRew2 then [51]
  else if x = abiEncode2 exAddr3 exRew3 then [52]
  else [99]

/-- Record 1 of the colliding example: leaf 1 with sibling `[30]`. -/
def exRec1c : Record := ⟨exAddr1, exRew1, 5, [[30]]⟩

/-- Record 2 of the colliding example: leaf 2 with sibling `[31]`; its
proof path produces parent hash `[40]` again, with different children. -/
def exRec2c : Record := ⟨exAddr2, exRew2, 7, [[31]]⟩

/-- Record 3 of the colliding example: a leaf with empty proof whose
hash is `[31]`, supplying metadata for the second child of `[40]`. -/
def exRec3c : Record := ⟨exAddr3, exRew3, 9, []⟩

theorem hashLe_refl (a : Hash) : hashLe a a = true := by
  induction a with
  | nil => rfl
  | cons x xs ih => simp [hashLe, ih]

theorem hashLe_total (a b : Hash) : hashLe a b = true ∨ hashLe b a = true := by
  induction a generalizing b with
  | nil => left; rfl
  | cons x xs ih =>
    cases b with
    | nil => right; rfl
    | cons y ys =>
      rcases Nat.lt_trichotomy x y with h | h | h
      · left; simp [hashLe, h]
      · subst h; simpa [hashLe] using ih ys
      · right; simp [hashLe, h]

theorem hashLe_antisymm : ∀ {a b : Hash}, hashLe a b = true → hashLe b a = true → a = b
  | [], [], _, _ => rfl
  | [], _ :: _, _, h2 => by simp [hashLe] at h2
  | _ :: _, [], h1, _ => by simp [hashLe] at h1
  | x :: xs, y :: ys, h1, h2 => by
    rcases Nat.lt_trichotomy x y with h | h | h
    · simp [hashLe, h, Nat.lt_asymm h] at h2
    · subst h
      simp only [hashLe, Nat.lt_irrefl, if_false] at h1 h2
      exact congrArg₂ List.cons rfl (hashLe_antisymm h1 h2)
    · simp [hashLe, h, Nat.lt_asymm h] at h1

theorem lookupH_mem {α : Type} {k : Hash} {v : α} :
    ∀ {l : List (Hash × α)}, lookupH k l = some v → (k, v) ∈ l := by
  intro l
  induction l with
  | nil => intro h; simp [lookupH] at h
  | cons p rest ih =>
    intro h
    by_cases hk : p.1 = k
    · rw [show p = (p.1, p.2) from rfl, hk] at h ⊢
      simp [lookupH] at h
      simp [h]
    · rw [show p = (p.1, p.2) from rfl] at h
      simp [lookupH, hk] at h
      exact List.mem_cons_of_mem _ (ih h)

theorem lookupH_isSome_iff_mem_keys {α : Type} (k : Hash) (l : List (Hash × α)) :
    (lookupH k l).isSome ↔ k ∈ l.map Prod.fst := by
  induction l with
  | nil => simp [lookupH]
  | cons p rest ih =>
    by_cases hk : p.1 = k
    · simp [lookupH, hk]
    · simp [lookupH, hk, ih, Ne.symm hk]

theorem functionalL_tail {α : Type} {p : Hash × α} {l : List (Hash × α)}
    (hf : FunctionalL (p :: l)) : FunctionalL l :=
  fun q hq q' hq' => hf q (List.mem_cons_of_mem _ hq) q' (List.mem_cons_of_mem _ hq')

theorem lookupH_of_mem_functional {α : Type} :
    ∀ {l : List (Hash × α)}, FunctionalL l → ∀ {k : Hash} {v : α},
      (k, v) ∈ l → lookupH k l = some v := by
  intro l
  induction l with
  | nil => intro _ k v h; simp at h
  | cons p rest ih =>
    intro hf k v hm
    by_cases hk : p.1 = k
    · have hv : p.2 = v := by
        rcases List.mem_cons.mp hm with h | h
        · rw [← h]
        · exact hf p (List.mem_cons_self _ _) (k, v) (List.mem_cons_of_mem _ h) hk
      rw [show p = (p.1, p.2) from rfl]
      simp [lookupH, hk, hv]
    · have hm' : (k, v) ∈ rest := by
        rcases List.mem_cons.mp hm with h | h
        · exact absurd (congrArg Prod.fst h.symm) hk
        · exact h
      rw [show p = (p.1, p.2) from rfl]
      simp [lookupH, hk]
      exact ih (functionalL_tail hf) hm'

theorem functionalL_of_perm {α : Type} {l l' : List (Hash × α)}
    (hp : l.Perm l') (hf : FunctionalL l) : FunctionalL l' :=
  fun p hp' q hq' => hf p (hp.mem_iff.mpr hp') q (hp.mem_iff.mpr hq')

theorem lookupH_eq_of_perm {α : Type} {l l' : List (Hash × α)}
    (hp : l.Perm l') (hf : FunctionalL l) (k : Hash) : lookupH k l = lookupH k l' := by
  cases hl : lookupH k l with
  | some v =>
    exact (lookupH_of_mem_functional (functionalL_of_perm hp hf)
      (hp.mem_iff.mp (lookupH_mem hl))).symm
  | none =>
    cases hl' : lookupH k l' with
    | none => rfl
    | some v =>
      have : lookupH k l = some v :=
        lookupH_of_mem_functional hf (hp.mem_iff.mpr (lookupH_mem hl'))
      rw [hl] at this
      exact absurd this (by simp)

theorem reaches_trans {ns : List NodeEntry} {x y z : Hash}
    (h1 : Reaches ns x y) (h2 : Reaches ns y z) : Reaches ns x z := by
  induction h1 with
  | refl _ => exact h2
  | step e he hx _ ih => exact .step e he hx (ih h2)

theorem reaches_mono {ns ns' : List NodeEntry} (hsub : ∀ e ∈ ns, e ∈ ns') {x y : Hash}
    (h : Reaches ns x y) : Reaches ns' x y := by
  induction h with
  | refl h => exact .refl h
  | step e he hx _ ih => exact .step e (hsub e he) hx ih

theorem not_reaches_single {i l r x root : Hash} (hx : x ≠ root) (hl : l ≠ x)
    (hr : r ≠ x) : ¬ Reaches [⟨i, l, r⟩] x root := by
  intro h
  cases h with
  | refl _ => exact hx rfl
  | step e he hx' _ =>
    rw [List.mem_singleton] at he
    subst he
    rcases hx' with h' | h'
    · exact hl h'
    · exact hr h'

theorem populateLoop_step_nodeHashCanon (K : Bytes → Hash) (c p : Hash)
    (rest : List Hash) (st : St) :
    populateLoop K c (p :: rest) st =
      populateLoop K (nodeHashCanon K c p) rest
        { st with
          hash_to_id := (nodeHashCanon K c p, nodeHashCanon K c p) :: st.hash_to_id
          left := (nodeHashCanon K c p, if hashLe c p then c else p) :: st.left
          right := (nodeHashCanon K c p, if hashLe c p then p else c) :: st.right } := by
  by_cases h : hashLe c p = true
  · simp [populateLoop, nodeHashCanon, h]
  · simp [populateLoop, nodeHashCanon, h]

/-- C3.  Node hashing as performed inside `populate` is commutative over
its unordered input pair: ordering the pair by byte value before hashing
the 64-byte concatenation makes the result independent of the order the
two hashes are supplied in; and on a byte-equal pair it degenerates to
`left = right = that hash` without failing. -/
theorem claim3_node_hash_commutative (K : Bytes → Hash) (a b : Hash) :
    nodeHashCanon K a b = nodeHashCanon K b a ∧
      nodeHashCanon K a a = hash_node K a a := by
  constructor
  · unfold nodeHashCanon
    by_cases h1 : hashLe a b = true
    · by_cases h2 : hashLe b a = true
      · rw [hashLe_antisymm h1 h2]
      · simp [h1, h2]
    · have h2 : hashLe b a = true := (hashLe_total a b).resolve_left h1
      simp [h1, h2]
  · unfold nodeHashCanon
    rw [if_pos (hashLe_refl a)]

/-- C5.  Whenever the hash `walk` is called on is absent from both the
parent mapping `left` and the leaf-metadata mapping `hash_to_address`,
the traversal fails: the script raises `KeyError(node)` at the
`hash_to_address[node]` subscript (the spec's `DanglingHashError`, which
propagates to the top through the recursive calls by construction of
`walk`), and no certificate is returned. -/
theorem claim5_dangling_fails (st : St) (fuel : Nat) (node : Hash) (cert : WalkCert)
    (hleft : lookupH node st.left = none)
    (haddr : lookupH node st.hash_to_address = none) :
    walk st (fuel + 1) node cert = .error (.keyError node) := by
  simp [walk, hleft, haddr]

theorem claim5_witness :
    lookupH [7] emptySt.left = none ∧
      lookupH [7] emptySt.hash_to_address = none ∧
      walk emptySt 1 [7] emptyWalkCert = .error (.keyError [7]) :=
  ⟨rfl, rfl, claim5_dangling_fails emptySt 0 [7] emptyWalkCert rfl rfl⟩

/-- C10.  A `populate` call with an empty proof path records exactly the
leaf metadata (and identifier) for the computed leaf hash and leaves the
parent mappings `left` and `right` untouched; a traversal started at
that leaf hash on the state built from empty produces exactly one leaf
entry and zero node entries. -/
theorem claim10_empty_proof (K : Bytes → Hash) (a r : Bytes) (m : Nat) (st : St)
    (fuel : Nat) :
    (populate K a r m [] st).left = st.left ∧
      (populate K a r m [] st).right = st.right ∧
      (populate K a r m [] st).hash_to_address =
        (hash_leaf K a r m, a) :: st.hash_to_address ∧
      (populate K a r m [] st).hash_to_reward =
        (hash_leaf K a r m, r) :: st.hash_to_reward ∧
      (populate K a r m [] st).hash_to_value =
        (hash_leaf K a r m, m) :: st.hash_to_value ∧
      (populate K a r m [] st).hash_to_id =
        (hash_leaf K a r m, hash_id K a r) :: st.hash_to_id ∧
      walk (populate K a r m [] emptySt) (fuel + 1) (hash_leaf K a r m) emptyWalkCert =
        .ok ⟨[⟨a, r, m⟩], []⟩ := by
  refine ⟨rfl, rfl, rfl, rfl, rfl, rfl, ?_⟩
  simp [walk, populate, populateLoop, emptySt, emptyWalkCert, lookupH]

/-- C2 (amended).  `populate` performs no consistency check on the parent
mapping: after processing a one-element proof path, the parent hash maps
to the just-computed child pair in `left`/`right` regardless of what any
earlier call had recorded there — a conflicting earlier pair is silently
shadowed, and no error of any kind is raised (`populate` is total). -/
theorem claim2_populate_overwrites (K : Bytes → Hash) (a r : Bytes) (m : Nat)
    (p : Hash) (st : St) :
    lookupH (nodeHashCanon K (hash_leaf K a r m) p) (populate K a r m [p] st).left =
        some (if hashLe (hash_leaf K a r m) p then hash_leaf K a r m else p) ∧
      lookupH (nodeHashCanon K (hash_leaf K a r m) p) (populate K a r m [p] st).right =
        some (if hashLe (hash_leaf K a r m) p then p else hash_leaf K a r m) := by
  unfold populate
  rw [populateLoop_step_nodeHashCanon]
  simp [populateLoop, lookupH]

/-- C2 (counterexample).  With a base hash on which two proof paths
produce the same parent hash `[40]` with different child pairs, the
second `populate` call does not fail: it silently replaces the recorded
pair `([11], [30])` by `([21], [31])`, and a full run over the three
records still produces an output certificate. -/
theorem claim2_counterexample :
    lookupH [40] (populate toyK2 exAddr1 exRew1 5 [[30]] emptySt).left = some [11] ∧
      lookupH [40] (populate toyK2 exAddr1 exRew1 5 [[30]] emptySt).right = some [30] ∧
      lookupH [40] (populate toyK2 exAddr2 exRew2 7 [[31]]
        (populate toyK2 exAddr1 exRew1 5 [[30]] emptySt)).left = some [21] ∧
      lookupH [40] (populate toyK2 exAddr2 exRew2 7 [[31]]
        (populate toyK2 exAddr1 exRew1 5 [[30]] emptySt)).right = some [31] ∧
      buildCertificate toyK2 3 [40] [exRec1c, exRec2c, exRec3c] =
        .ok ⟨[40], [⟨exAddr2, exRew2, 7⟩, ⟨exAddr3, exRew3, 9⟩],
          [⟨[40], [51], [52]⟩], 2, 1⟩ := by
  decide

theorem beBytes_zero (k : Nat) : beBytes k 0 = List.replicate k 0 := by
  induction k with
  | zero => rfl
  | succ n ih => simp [beBytes, ih, List.replicate_succ']

theorem beBytes_eq_pad :
    ∀ (k n : Nat), n < 256 ^ k →
      beBytes k n = List.replicate (k - (minBytes k n).length) 0 ++ minBytes k n := by
  intro k
  induction k with
  | zero =>
    intro n hn
    interval_cases n
    rfl
  | succ j ih =>
    intro n hn
    by_cases h0 : n = 0
    · subst h0
      simp [minBytes, beBytes_zero]
    · have hdiv : n / 256 < 256 ^ j := by
        rw [Nat.div_lt_iff_lt_mul (by norm_num)]
        calc n < 256 ^ (j + 1) := hn
          _ = 256 ^ j * 256 := by rw [pow_succ]
      have hb : beBytes (j + 1) n = beBytes j (n / 256) ++ [n % 256] := rfl
      have hm : minBytes (j + 1) n = minBytes j (n / 256) ++ [n % 256] := by
        simp [minBytes, h0]
      rw [hb, hm, ih (n / 256) hdiv, List.length_append, List.length_singleton,
        Nat.succ_sub_succ, List.append_assoc]

/-- C6.  For a well-formed triple (20-byte address, 20-byte reward-token
address, 256-bit amount), `hash_leaf` equals the base hash applied twice:
once to the fixed-width ABI-style concatenation (each field left-padded
to its 32-byte slot, no length prefixes) and once more to the result, as
§4.1 of the spec describes it. -/
theorem claim6_leaf_hash_spec (K : Bytes → Hash) (a r : Bytes) (m : Nat)
    (ha : a.length = 20) (hr : r.length = 20) (hm : m < 256 ^ 32) :
    hash_leaf K a r m = specLeafHash K a r m := by
  unfold hash_leaf specLeafHash abiEncode3 leftPad32 specEncodeAddress specEncodeWord
  rw [ha, hr, beBytes_eq_pad 32 m hm]

theorem populateLoop_keys_eq (K : Bytes → Hash) :
    ∀ (pr : List Hash) (c : Hash) (st : St),
      st.left.map Prod.fst = st.right.map Prod.fst →
      (populateLoop K c pr st).left.map Prod.fst =
        (populateLoop K c pr st).right.map Prod.fst := by
  intro pr
  induction pr with
  | nil => intro c st h; exact h
  | cons p rest ih =>
    intro c st h
    simp only [populateLoop]
    apply ih
    simp [h]

theorem runRecords_keys_eq (K : Bytes → Hash) :
    ∀ (records : List Record) (st : St),
      st.left.map Prod.fst = st.right.map Prod.fst →
      (runRecords K records st).left.map Prod.fst =
        (runRecords K records st).right.map Prod.fst := by
  intro records
  induction records with
  | nil => intro st h; exact h
  | cons r rest ih =>
    intro st h
    simp only [runRecords, List.foldl_cons]
    exact ih _ (populateLoop_keys_eq K _ _ _ h)

/-- C9.  After any sequence of `populate` calls starting from the empty
state, the parent mappings `left` and `right` have the same key set: a
hash has a recorded left child exactly when it has a recorded right
child (the loop always writes the two dicts together). -/
theorem claim9_left_right_same_keys (K : Bytes → Hash) (records : List Record)
    (h : Hash) :
    (lookupH h (runRecords K records emptySt).left).isSome ↔
      (lookupH h (runRecords K records emptySt).right).isSome := by
  rw [lookupH_isSome_iff_mem_keys, lookupH_isSome_iff_mem_keys,
    runRecords_keys_eq K records emptySt rfl]

theorem walk_ok_toTree (st : St) :
    ∀ (fuel : Nat) (h : Hash) (c c' : WalkCert),
      walk st fuel h c = .ok c' →
      ∃ t, toTree st fuel h = some t ∧
        c' = ⟨c.leaf ++ postLeaves t, c.node ++ postNodes t⟩ := by
  intro fuel
  induction fuel with
  | zero => intro h c c' hw; exact Except.noConfusion hw
  | succ n ih =>
    intro h c c' hw
    rw [walk] at hw
    cases hleft : lookupH h st.left with
    | some l =>
      simp only [hleft] at hw
      cases hwl : walk st n l c with
      | error e => simp only [hwl] at hw; exact Except.noConfusion hw
      | ok c1 =>
        simp only [hwl] at hw
        cases hright : lookupH h st.right with
        | none => simp only [hright] at hw; exact Except.noConfusion hw
        | some r =>
          simp only [hright] at hw
          cases hwr : walk st n r c1 with
          | error e => simp only [hwr] at hw; exact Except.noConfusion hw
          | ok c2 =>
            simp only [hwr] at hw
            cases hil : lookupH l st.hash_to_id with
            | none => simp only [hil] at hw; exact Except.noConfusion hw
            | some il =>
              simp only [hil] at hw
              cases hir : lookupH r st.hash_to_id with
              | none => simp only [hir] at hw; exact Except.noConfusion hw
              | some ir =>
                simp only [hir] at hw
                obtain ⟨t1, ht1, hc1⟩ := ih l c c1 hwl
                obtain ⟨t2, ht2, hc2⟩ := ih r c1 c2 hwr
                refine ⟨.node h il ir t1 t2, ?_, ?_⟩
                · simp only [toTree, hleft, hright, ht1, ht2, hil, hir]
                · have hc' : c' = { c2 with node := c2.node ++ [⟨h, il, ir⟩] } := by
                    injection hw with h'
                    exact h'.symm
                  subst hc'
                  subst hc2
                  subst hc1
                  simp [postLeaves, postNodes, List.append_assoc]
    | none =>
      simp only [hleft] at hw
      cases haddr : lookupH h st.hash_to_address with
      | none => simp only [haddr] at hw; exact Except.noConfusion hw
      | some a =>
        simp only [haddr] at hw
        cases hrew : lookupH h st.hash_to_reward with
        | none => simp only [hrew] at hw; exact Except.noConfusion hw
        | some rr =>
          simp only [hrew] at hw
          cases hval : lookupH h st.hash_to_value with
          | none => simp only [hval] at hw; exact Except.noConfusion hw
          | some v =>
            simp only [hval] at hw
            refine ⟨.leaf a rr v, ?_, ?_⟩
            · simp only [toTree, hleft, haddr, hrew, hval]
            · have hc' : c' = { c with leaf := c.leaf ++ [⟨a, rr, v⟩] } := by
                injection hw with h'
                exact h'.symm
              subst hc'
              simp [postLeaves, postNodes]

theorem toTree_some_inv {st : St} :
    ∀ {fuel : Nat} {h : Hash} {t : MTree}, toTree st fuel h = some t →
      (lookupH h st.left = none ∧ ∃ a r v, t = .leaf a r v ∧
        lookupH h st.hash_to_address = some a ∧ lookupH h st.hash_to_reward = some r ∧
        lookupH h st.hash_to_value = some v) ∨
      (∃ n l r il ir t1 t2, fuel = n + 1 ∧ t = .node h il ir t1 t2 ∧
        lookupH h st.left = some l ∧ lookupH h st.right = some r ∧
        toTree st n l = some t1 ∧ toTree st n r = some t2 ∧
        lookupH l st.hash_to_id = some il ∧ lookupH r st.hash_to_id = some ir) := by
  intro fuel h t ht
  cases fuel with
  | zero => exact Option.noConfusion ht
  | succ n =>
    rw [toTree] at ht
    cases hleft : lookupH h st.left with
    | some l =>
      simp only [hleft] at ht
      cases hright : lookupH h st.right with
      | none => simp only [hright] at ht; exact Option.noConfusion ht
      | some r =>
        simp only [hright] at ht
        cases ht1 : toTree st n l with
        | none => simp only [ht1] at ht; exact Option.noConfusion ht
        | some t1 =>
          simp only [ht1] at ht
          cases ht2 : toTree st n r with
          | none => simp only [ht2] at ht; exact Option.noConfusion ht
          | some t2 =>
            simp only [ht2] at ht
            cases hil : lookupH l st.hash_to_id with
            | none => simp only [hil] at ht; exact Option.noConfusion ht
            | some il =>
              simp only [hil] at ht
              cases hir : lookupH r st.hash_to_id with
              | none => simp only [hir] at ht; exact Option.noConfusion ht
              | some ir =>
                simp only [hir] at ht
                injection ht with ht'
                exact Or.inr ⟨n, l, r, il, ir, t1, t2, rfl, ht'.symm, rfl, rfl,
                  ht1, ht2, hil, hir⟩
    | none =>
      simp only [hleft] at ht
      cases haddr : lookupH h st.hash_to_address with
      | none => simp only [haddr] at ht; exact Option.noConfusion ht
      | some a =>
        simp only [haddr] at ht
        cases hrew : lookupH h st.hash_to_reward with
        | none => simp only [hrew] at ht; exact Option.noConfusion ht
        | some rr =>
          simp only [hrew] at ht
          cases hval : lookupH h st.hash_to_value with
          | none => simp only [hval] at ht; exact Option.noConfusion ht
          | some v =>
            simp only [hval] at ht
            injection ht with ht'
            exact Or.inl ⟨rfl, a, rr, v, ht'.symm, rfl, rfl, rfl⟩

theorem buildCert_ok_toTree {K : Bytes → Hash} {fuel : Nat} {root : Hash}
    {records : List Record} {cert : Certificate}
    (hok : buildCertificate K fuel root records = .ok cert) :
    ∃ t, toTree (runRecords K records emptySt) fuel root = some t ∧
      cert.leaf = postLeaves t ∧ cert.node = postNodes t ∧
      cert.leafLength = cert.leaf.length ∧ cert.nodeLength = cert.node.length ∧
      cert.root = root := by
  unfold buildCertificate at hok
  cases hw : walk (runRecords K records emptySt) fuel root emptyWalkCert with
  | error e => rw [hw] at hok; exact Except.noConfusion hok
  | ok c =>
    rw [hw] at hok
    obtain ⟨t, ht, hc⟩ := walk_ok_toTree _ fuel root emptyWalkCert c hw
    have hcert : cert = ⟨root, c.leaf, c.node, c.leaf.length, c.node.length⟩ := by
      injection hok with h'
      exact h'.symm
    subst hcert
    subst hc
    exact ⟨t, ht, by simp [emptyWalkCert], by simp [emptyWalkCert], rfl, rfl, rfl⟩

theorem toTree_leaf_reaches (K : Bytes → Hash) (st : St)
    (hid : idCoherent st) (hlid : leafIdCoherent K st) :
    ∀ (fuel : Nat) (h : Hash) (t : MTree), toTree st fuel h = some t →
      ∀ ℓ ∈ postLeaves t,
        (lookupH h st.left = none ∧ lookupH h st.hash_to_address = some ℓ.addr ∧
          lookupH h st.hash_to_reward = some ℓ.reward ∧
          lookupH h st.hash_to_value = some ℓ.value) ∨
        ((lookupH h st.left).isSome ∧ Reaches (postNodes t) (hash_id K ℓ.addr ℓ.reward) h) := by
  intro fuel
  induction fuel with
  | zero => intro h t ht; exact Option.noConfusion ht
  | succ n ih =>
    intro h t ht ℓ hℓ
    rcases toTree_some_inv ht with
      ⟨hleft, a, rr, v, hteq, haddr, hrew, hval⟩ |
      ⟨n', l, r, il, ir, t1, t2, hn, hteq, hleft, hright, ht1, ht2, hil, hir⟩
    · subst hteq
      simp only [postLeaves, List.mem_singleton] at hℓ
      subst hℓ
      exact Or.inl ⟨hleft, haddr, hrew, hval⟩
    · have hn' : n' = n := by omega
      subst hn'
      subst hteq
      have hself : (⟨h, il, ir⟩ : NodeEntry) ∈ postNodes (.node h il ir t1 t2) := by
        simp [postNodes]
      have hsub1 : ∀ e ∈ postNodes t1, e ∈ postNodes (.node h il ir t1 t2) := by
        intro e he; simp [postNodes, he]
      have hsub2 : ∀ e ∈ postNodes t2, e ∈ postNodes (.node h il ir t1 t2) := by
        intro e he; simp [postNodes, he]
      simp only [postLeaves, List.mem_append] at hℓ
      rcases hℓ with hℓ1 | hℓ2
      · rcases ih l t1 ht1 ℓ hℓ1 with ⟨hlnone, haddr, hrew, hval⟩ | ⟨hlsome, hre⟩
        · have hmem : (l, ℓ.addr) ∈ st.hash_to_address := lookupH_mem haddr
          have hidl := hlid (l, ℓ.addr) hmem hlnone
          simp only [haddr, hrew, Option.some_bind, Option.map_some'] at hidl
          rw [hil] at hidl
          injection hidl with hile
          refine Or.inr ⟨by simp [hleft], ?_⟩
          rw [← hile]
          exact .step ⟨h, il, ir⟩ hself (Or.inl rfl) (.refl h)
        · obtain ⟨lv, hlv⟩ := Option.isSome_iff_exists.mp hlsome
          have hmeml : (l, lv) ∈ st.left := lookupH_mem hlv
          have hidl : lookupH l st.hash_to_id = some l := hid (l, lv) hmeml
          rw [hil] at hidl
          injection hidl with hile
          refine Or.inr ⟨by simp [hleft], ?_⟩
          refine reaches_trans (reaches_mono hsub1 hre) ?_
          exact .step ⟨h, il, ir⟩ hself (Or.inl hile) (.refl h)
      · rcases ih r t2 ht2 ℓ hℓ2 with ⟨hlnone, haddr, hrew, hval⟩ | ⟨hlsome, hre⟩
        · have hmem : (r, ℓ.addr) ∈ st.hash_to_address := lookupH_mem haddr
          have hidr := hlid (r, ℓ.addr) hmem hlnone
          simp only [haddr, hrew, Option.some_bind, Option.map_some'] at hidr
          rw [hir] at hidr
          injection hidr with hire
          refine Or.inr ⟨by simp [hleft], ?_⟩
          rw [← hire]
          exact .step ⟨h, il, ir⟩ hself (Or.inr rfl) (.refl h)
        · obtain ⟨rv, hrv⟩ := Option.isSome_iff_exists.mp hlsome
          have hmemr : (r, rv) ∈ st.left := lookupH_mem hrv
          have hidr : lookupH r st.hash_to_id = some r := hid (r, rv) hmemr
          rw [hir] at hidr
          injection hidr with hire
          refine Or.inr ⟨by simp [hleft], ?_⟩
          refine reaches_trans (reaches_mono hsub2 hre) ?_
          exact .step ⟨h, il, ir⟩ hself (Or.inr hire) (.refl h)

/-- C1 (amended).  In a produced certificate, every leaf entry links back
to the root — but through the identifier stored in the node entries: the
node entries reference a leaf child by `hash_id(addr, reward)` rather
than by its leaf hash.  For every leaf entry, either its recomputed leaf
hash is itself the root (single-leaf tree), or walking upward from its
recomputed identifier `hash_id(addr, reward)` through the node entries
by `left`/`right` links reaches the root.  The coherence hypotheses are
the id-bookkeeping invariants `populate` establishes whenever the base
hash does not collide across roles (witnessed concretely below). -/
theorem claim1_roundtrip_amended (K : Bytes → Hash) (fuel : Nat) (root : Hash)
    (records : List Record) (cert : Certificate)
    (hid : idCoherent (runRecords K records emptySt))
    (hlid : leafIdCoherent K (runRecords K records emptySt))
    (hlc : leafCoherent K (runRecords K records emptySt))
    (hok : buildCertificate K fuel root records = .ok cert) :
    ∀ ℓ ∈ cert.leaf,
      hash_leaf K ℓ.addr ℓ.reward ℓ.value = root ∨
        Reaches cert.node (hash_id K ℓ.addr ℓ.reward) root := by
  obtain ⟨t, ht, hleaf, hnode, _⟩ := buildCert_ok_toTree hok
  intro ℓ hℓ
  rw [hleaf] at hℓ
  rcases toTree_leaf_reaches K _ hid hlid fuel root t ht ℓ hℓ with
    ⟨hlnone, haddr, hrew, hval⟩ | ⟨_, hre⟩
  · left
    have hmem : (root, ℓ.addr) ∈ (runRecords K records emptySt).hash_to_address :=
      lookupH_mem haddr
    have hc : optHolds (fun ℓ' => hash_leaf K ℓ'.addr ℓ'.reward ℓ'.value = root)
        (leafData (runRecords K records emptySt) root) := hlc (root, ℓ.addr) hmem
    have hld : leafData (runRecords K records emptySt) root =
        some ⟨ℓ.addr, ℓ.reward, ℓ.value⟩ := by
      simp [leafData, haddr, hrew, hval]
    rw [hld] at hc
    exact hc
  · right
    rw [hnode]
    exact hre

theorem claim1_witness :
    idCoherent (runRecords toyK [exRec1, exRec2] emptySt) ∧
      leafIdCoherent toyK (runRecords toyK [exRec1, exRec2] emptySt) ∧
      leafCoherent toyK (runRecords toyK [exRec1, exRec2] emptySt) ∧
      buildCertificate toyK 3 [40] [exRec1, exRec2] =
        .ok ⟨[40], [⟨exAddr1, exRew1, 5⟩, ⟨exAddr2, exRew2, 7⟩],
          [⟨[40], [50], [51]⟩], 2, 1⟩ ∧
      ∀ ℓ ∈ ([⟨exAddr1, exRew1, 5⟩, ⟨exAddr2, exRew2, 7⟩] : List LeafEntry),
        hash_leaf toyK ℓ.addr ℓ.reward ℓ.value = [40] ∨
          Reaches [⟨[40], [50], [51]⟩] (hash_id toyK ℓ.addr ℓ.reward) [40] :=
  ⟨by decide, by decide, by decide, by decide,
    claim1_roundtrip_amended toyK 3 [40] [exRec1, exRec2]
      ⟨[40], [⟨exAddr1, exRew1, 5⟩, ⟨exAddr2, exRew2, 7⟩], [⟨[40], [50], [51]⟩], 2, 1⟩
      (by decide) (by decide) (by decide) (by decide)⟩

/-- C1 (counterexample).  In the two-leaf example certificate the node
entries reference the leaves by their identifier hashes `[50]`/`[51]`,
not by their leaf hashes: starting from the first leaf entry's
recomputed leaf hash `[11]` (which differs from the root `[40]`), no
node entry has a `left` or `right` link equal to it, so walking upward
by `left`/`right` links cannot reach the root. -/
theorem claim1_counterexample :
    buildCertificate toyK 3 [40] [exRec1, exRec2] =
      .ok ⟨[40], [⟨exAddr1, exRew1, 5⟩, ⟨exAddr2, exRew2, 7⟩],
        [⟨[40], [50], [51]⟩], 2, 1⟩ ∧
    hash_leaf toyK exAddr1 exRew1 5 = [11] ∧
    ¬ Reaches [⟨[40], [50], [51]⟩] (hash_leaf toyK exAddr1 exRew1 5) [40] := by
  refine ⟨by decide, by decide, ?_⟩
  have h : hash_leaf toyK exAddr1 exRew1 5 = [11] := by decide
  rw [h]
  exact not_reaches_single (by decide) (by decide) (by decide)

theorem toTree_nodes_props (K : Bytes → Hash) (st : St)
    (hid : idCoherent st) (hlid : leafIdCoherent K st) :
    ∀ (fuel : Nat) (h : Hash) (t : MTree), toTree st fuel h = some t →
      ∀ e ∈ postNodes t,
        (∃ l r, lookupH e.id st.left = some l ∧ lookupH e.id st.right = some r ∧
          lookupH l st.hash_to_id = some e.left ∧
          lookupH r st.hash_to_id = some e.right) ∧
        ((∃ e' ∈ postNodes t, e'.id = e.left) ∨
          (∃ ℓ ∈ postLeaves t, hash_id K ℓ.addr ℓ.reward = e.left)) ∧
        ((∃ e' ∈ postNodes t, e'.id = e.right) ∨
          (∃ ℓ ∈ postLeaves t, hash_id K ℓ.addr ℓ.reward = e.right)) := by
  intro fuel
  induction fuel with
  | zero => intro h t ht; exact Option.noConfusion ht
  | succ n ih =>
    intro h t ht e he
    rcases toTree_some_inv ht with
      ⟨hleft, a, rr, v, hteq, haddr, hrew, hval⟩ |
      ⟨n', l, r, il, ir, t1, t2, hn, hteq, hleft, hright, ht1, ht2, hil, hir⟩
    · subst hteq
      simp [postNodes] at he
    · have hn' : n' = n := by omega
      subst hn'
      subst hteq
      have hsubN1 : ∀ x ∈ postNodes t1, x ∈ postNodes (.node h il ir t1 t2) := by
        intro x hx; simp [postNodes, hx]
      have hsubN2 : ∀ x ∈ postNodes t2, x ∈ postNodes (.node h il ir t1 t2) := by
        intro x hx; simp [postNodes, hx]
      have hsubL1 : ∀ x ∈ postLeaves t1, x ∈ postLeaves (.node h il ir t1 t2) := by
        intro x hx; simp [postLeaves, hx]
      have hsubL2 : ∀ x ∈ postLeaves t2, x ∈ postLeaves (.node h il ir t1 t2) := by
        intro x hx; simp [postLeaves, hx]
      have hlift : ∀ (t' : MTree) (cid : Hash),
          (∀ x ∈ postNodes t', x ∈ postNodes (.node h il ir t1 t2)) →
          (∀ x ∈ postLeaves t', x ∈ postLeaves (.node h il ir t1 t2)) →
          ((∃ e' ∈ postNodes t', e'.id = cid) ∨
            (∃ ℓ ∈ postLeaves t', hash_id K ℓ.addr ℓ.reward = cid)) →
          ((∃ e' ∈ postNodes (.node h il ir t1 t2), e'.id = cid) ∨
            (∃ ℓ ∈ postLeaves (.node h il ir t1 t2), hash_id K ℓ.addr ℓ.reward = cid)) := by
        intro t' cid hn'' hl'' hL
        rcases hL with ⟨e', he', hee⟩ | ⟨ℓ, hℓ, hee⟩
        · exact Or.inl ⟨e', hn'' e' he', hee⟩
        · exact Or.inr ⟨ℓ, hl'' ℓ hℓ, hee⟩
      have hchild : ∀ (child cid : Hash) (tc : MTree), toTree st n' child = some tc →
          lookupH child st.hash_to_id = some cid →
          (∃ e' ∈ postNodes tc, e'.id = cid) ∨
            (∃ ℓ ∈ postLeaves tc, hash_id K ℓ.addr ℓ.reward = cid) := by
        intro child cid tc htc hcid
        rcases toTree_some_inv htc with
          ⟨hleftc, ac, rrc, vc, hteqc, haddrc, hrewc, hvalc⟩ |
          ⟨nc, lc, rc, ilc, irc, s1, s2, hnc, hteqc, hleftc, hrightc, hs1, hs2, hilc, hirc⟩
        · subst hteqc
          have hmem : (child, ac) ∈ st.hash_to_address := lookupH_mem haddrc
          have hidc := hlid (child, ac) hmem hleftc
          simp only [haddrc, hrewc, Option.some_bind, Option.map_some'] at hidc
          rw [hcid] at hidc
          injection hidc with hce
          exact Or.inr ⟨⟨ac, rrc, vc⟩, by simp [postLeaves], hce.symm⟩
        · subst hteqc
          have hmem : (child, lc) ∈ st.left := lookupH_mem hleftc
          have hidc : lookupH child st.hash_to_id = some child := hid (child, lc) hmem
          rw [hcid] at hidc
          injection hidc with hce
          exact Or.inl ⟨⟨child, ilc, irc⟩, by simp [postNodes], hce.symm⟩
      simp only [postNodes, List.mem_append, List.mem_singleton] at he
      rcases he with (he1 | he2) | heself
      · obtain ⟨hshape, hL, hR⟩ := ih l t1 ht1 e he1
        exact ⟨hshape, hlift t1 e.left hsubN1 hsubL1 hL,
          hlift t1 e.right hsubN1 hsubL1 hR⟩
      · obtain ⟨hshape, hL, hR⟩ := ih r t2 ht2 e he2
        exact ⟨hshape, hlift t2 e.left hsubN2 hsubL2 hL,
          hlift t2 e.right hsubN2 hsubL2 hR⟩
      · subst heself
        exact ⟨⟨l, r, hleft, hright, hil, hir⟩,
          hlift t1 il hsubN1 hsubL1 (hchild l il t1 ht1 hil),
          hlift t2 ir hsubN2 hsubL2 (hchild r ir t2 ht2 hir)⟩

/-- C7 (amended).  In every produced certificate, `leafLength` and
`nodeLength` equal the numbers of leaf and node entries; each node entry
has the form `{id: the node's own hash, left: id of the left child,
right: id of the right child}` where a child's id is read from
`hash_to_id` (the child's own hash for an internal child, but
`hash_id(addr, reward)` for a leaf child — not the leaf's hash); and
every `left`/`right` reference resolves to another node entry's `id` or
to a leaf entry's identifier hash `hash_id(addr, reward)`. -/
theorem claim7_completeness_amended (K : Bytes → Hash) (fuel : Nat) (root : Hash)
    (records : List Record) (cert : Certificate)
    (hid : idCoherent (runRecords K records emptySt))
    (hlid : leafIdCoherent K (runRecords K records emptySt))
    (hok : buildCertificate K fuel root records = .ok cert) :
    cert.leafLength = cert.leaf.length ∧ cert.nodeLength = cert.node.length ∧
      (∀ e ∈ cert.node,
        ∃ l r, lookupH e.id (runRecords K records emptySt).left = some l ∧
          lookupH e.id (runRecords K records emptySt).right = some r ∧
          lookupH l (runRecords K records emptySt).hash_to_id = some e.left ∧
          lookupH r (runRecords K records emptySt).hash_to_id = some e.right) ∧
      (∀ e ∈ cert.node,
        ((∃ e' ∈ cert.node, e'.id = e.left) ∨
          (∃ ℓ ∈ cert.leaf, hash_id K ℓ.addr ℓ.reward = e.left)) ∧
        ((∃ e' ∈ cert.node, e'.id = e.right) ∨
          (∃ ℓ ∈ cert.leaf, hash_id K ℓ.addr ℓ.reward = e.right))) := by
  obtain ⟨t, ht, hleaf, hnode, hll, hnl, _⟩ := buildCert_ok_toTree hok
  refine ⟨hll, hnl, ?_, ?_⟩
  · intro e he
    rw [hnode] at he
    exact (toTree_nodes_props K _ hid hlid fuel root t ht e he).1
  · intro e he
    rw [hnode] at he
    rw [hleaf, hnode]
    exact (toTree_nodes_props K _ hid hlid fuel root t ht e he).2

theorem claim7_witness :
    idCoherent (runRecords toyK [exRec1, exRec2] emptySt) ∧
      leafIdCoherent toyK (runRecords toyK [exRec1, exRec2] emptySt) ∧
      buildCertificate toyK 3 [40] [exRec1, exRec2] =
        .ok ⟨[40], [⟨exAddr1, exRew1, 5⟩, ⟨exAddr2, exRew2, 7⟩],
          [⟨[40], [50], [51]⟩], 2, 1⟩ ∧
      (2 = ([⟨exAddr1, exRew1, 5⟩, ⟨exAddr2, exRew2, 7⟩] : List LeafEntry).length ∧
        1 = ([⟨[40], [50], [51]⟩] : List NodeEntry).length ∧
        (∀ e ∈ ([⟨[40], [50], [51]⟩] : List NodeEntry),
          ∃ l r, lookupH e.id (runRecords toyK [exRec1, exRec2] emptySt).left = some l ∧
            lookupH e.id (runRecords toyK [exRec1, exRec2] emptySt).right = some r ∧
            lookupH l (runRecords toyK [exRec1, exRec2] emptySt).hash_to_id = some e.left ∧
            lookupH r (runRecords toyK [exRec1, exRec2] emptySt).hash_to_id = some e.right) ∧
        (∀ e ∈ ([⟨[40], [50], [51]⟩] : List NodeEntry),
          ((∃ e' ∈ ([⟨[40], [50], [51]⟩] : List NodeEntry), e'.id = e.left) ∨
            (∃ ℓ ∈ ([⟨exAddr1, exRew1, 5⟩, ⟨exAddr2, exRew2, 7⟩] : List LeafEntry),
              hash_id toyK ℓ.addr ℓ.reward = e.left)) ∧
          ((∃ e' ∈ ([⟨[40], [50], [51]⟩] : List NodeEntry), e'.id = e.right) ∨
            (∃ ℓ ∈ ([⟨exAddr1, exRew1, 5⟩, ⟨exAddr2, exRew2, 7⟩] : List LeafEntry),
              hash_id toyK ℓ.addr ℓ.reward = e.right)))) :=
  ⟨by decide, by decide, by decide,
    claim7_completeness_amended toyK 3 [40] [exRec1, exRec2]
      ⟨[40], [⟨exAddr1, exRew1, 5⟩, ⟨exAddr2, exRew2, 7⟩], [⟨[40], [50], [51]⟩], 2, 1⟩
      (by decide) (by decide) (by decide)⟩

/-- C7 (counterexample).  In the two-leaf example certificate the single
node entry's `left` field is `[50]` — the identifier `hash_id` of leaf 1
— which is neither any node entry's `id`, nor any leaf entry's computed
leaf hash (`hash_leaf`), nor the raw left child hash `[11]` recorded in
the `left` mapping.  This refutes both the claim's `{id, leftChildHash,
rightChildHash}` form and its resolution clause as stated. -/
theorem claim7_counterexample :
    buildCertificate toyK 3 [40] [exRec1, exRec2] =
      .ok ⟨[40], [⟨exAddr1, exRew1, 5⟩, ⟨exAddr2, exRew2, 7⟩],
        [⟨[40], [50], [51]⟩], 2, 1⟩ ∧
    (⟨[40], [50], [51]⟩ : NodeEntry) ∈ ([⟨[40], [50], [51]⟩] : List NodeEntry) ∧
    (∀ e' ∈ ([⟨[40], [50], [51]⟩] : List NodeEntry), e'.id ≠ [50]) ∧
    (∀ ℓ ∈ ([⟨exAddr1, exRew1, 5⟩, ⟨exAddr2, exRew2, 7⟩] : List LeafEntry),
      hash_leaf toyK ℓ.addr ℓ.reward ℓ.value ≠ [50]) ∧
    lookupH [40] (runRecords toyK [exRec1, exRec2] emptySt).left = some [11] ∧
    ([50] : Hash) ≠ [11] := by
  decide

theorem populateLoop_decomp (K : Bytes → Hash) :
    ∀ (pr : List Hash) (c : Hash) (st : St),
      populateLoop K c pr st =
        { st with
          hash_to_id := ((chainTriples K c pr).map fun s => (s.1, s.1)).reverse ++
            st.hash_to_id
          left := ((chainTriples K c pr).map fun s => (s.1, s.2.1)).reverse ++ st.left
          right := ((chainTriples K c pr).map fun s => (s.1, s.2.2)).reverse ++
            st.right } := by
  intro pr
  induction pr with
  | nil => intro c st; rfl
  | cons p rest ih =>
    intro c st
    simp only [populateLoop, chainTriples]
    rw [ih]
    simp [List.reverse_cons, List.append_assoc]

theorem populate_decomp (K : Bytes → Hash) (r : Record) (st : St) :
    populate K r.addr r.reward r.amount r.proof st =
      { st with
        hash_to_id := recIdWrites K r ++ st.hash_to_id
        hash_to_address := recAddrWrites K r ++ st.hash_to_address
        hash_to_reward := recRewardWrites K r ++ st.hash_to_reward
        hash_to_value := recValueWrites K r ++ st.hash_to_value
        left := recLeftWrites K r ++ st.left
        right := recRightWrites K r ++ st.right } := by
  unfold populate recIdWrites recAddrWrites recRewardWrites recValueWrites
    recLeftWrites recRightWrites recTriples
  rw [populateLoop_decomp]
  simp [List.append_assoc]

theorem runRecords_decomp (K : Bytes → Hash) :
    ∀ (records : List Record) (st : St),
      runRecords K records st =
        { st with
          hash_to_id := records.reverse.flatMap (recIdWrites K) ++ st.hash_to_id
          hash_to_address :=
            records.reverse.flatMap (recAddrWrites K) ++ st.hash_to_address
          hash_to_reward :=
            records.reverse.flatMap (recRewardWrites K) ++ st.hash_to_reward
          hash_to_value := records.reverse.flatMap (recValueWrites K) ++ st.hash_to_value
          left := records.reverse.flatMap (recLeftWrites K) ++ st.left
          right := records.reverse.flatMap (recRightWrites K) ++ st.right } := by
  intro records
  induction records with
  | nil => intro st; rfl
  | cons r rest ih =>
    intro st
    show runRecords K rest (populate K r.addr r.reward r.amount r.proof st) = _
    rw [ih, populate_decomp]
    simp [List.flatMap_append, List.append_assoc]

theorem walk_congr {s t : St} (hse : stEquiv s t) :
    ∀ (fuel : Nat) (h : Hash) (c : WalkCert), walk s fuel h c = walk t fuel h c := by
  obtain ⟨hid, haddr, hrew, hval, hleft, hright⟩ := hse
  intro fuel
  induction fuel with
  | zero => intro h c; rfl
  | succ n ih =>
    intro h c
    simp only [walk, hleft, haddr, hrew, hval, hid, hright, ih]

theorem runRecords_perm (K : Bytes → Hash) {rs rs' : List Record} (hp : rs.Perm rs') :
    (runRecords K rs emptySt).hash_to_id.Perm (runRecords K rs' emptySt).hash_to_id ∧
      (runRecords K rs emptySt).hash_to_address.Perm
        (runRecords K rs' emptySt).hash_to_address ∧
      (runRecords K rs emptySt).hash_to_reward.Perm
        (runRecords K rs' emptySt).hash_to_reward ∧
      (runRecords K rs emptySt).hash_to_value.Perm
        (runRecords K rs' emptySt).hash_to_value ∧
      (runRecords K rs emptySt).left.Perm (runRecords K rs' emptySt).left ∧
      (runRecords K rs emptySt).right.Perm (runRecords K rs' emptySt).right := by
  have hrev : rs.reverse.Perm rs'.reverse :=
    (List.reverse_perm rs).trans (hp.trans (List.reverse_perm rs').symm)
  rw [runRecords_decomp, runRecords_decomp]
  simp only [emptySt, List.append_nil]
  exact ⟨hrev.flatMap_right _, hrev.flatMap_right _, hrev.flatMap_right _,
    hrev.flatMap_right _, hrev.flatMap_right _, hrev.flatMap_right _⟩

/-- C4.  Permuting the enumeration order of the input records does not
change the output certificate, provided the run never rebinds a dict key
to a different value (`stFunctional`, which holds whenever the base hash
does not collide on the input set — for the real keccak-256, on every
input document): the leaf and node sequences, both counts and the root
are identical in both runs. -/
theorem claim4_order_invariance (K : Bytes → Hash) (fuel : Nat) (root : Hash)
    (rs rs' : List Record) (hp : rs.Perm rs')
    (hf : stFunctional (runRecords K rs emptySt)) :
    buildCertificate K fuel root rs = buildCertificate K fuel root rs' := by
  obtain ⟨hp1, hp2, hp3, hp4, hp5, hp6⟩ := runRecords_perm K hp
  obtain ⟨hf1, hf2, hf3, hf4, hf5, hf6⟩ := hf
  have hse : stEquiv (runRecords K rs emptySt) (runRecords K rs' emptySt) :=
    ⟨lookupH_eq_of_perm hp1 hf1, lookupH_eq_of_perm hp2 hf2,
      lookupH_eq_of_perm hp3 hf3, lookupH_eq_of_perm hp4 hf4,
      lookupH_eq_of_perm hp5 hf5, lookupH_eq_of_perm hp6 hf6⟩
  unfold buildCertificate
  rw [walk_congr hse fuel root emptyWalkCert]

theorem claim4_witness :
    stFunctional (runRecords toyK [exRec1, exRec2] emptySt) ∧
      buildCertificate toyK 3 [40] [exRec1, exRec2] =
        buildCertificate toyK 3 [40] [exRec2, exRec1] :=
  ⟨by decide,
    claim4_order_invariance toyK 3 [40] [exRec1, exRec2] [exRec2, exRec1]
      (List.Perm.swap exRec2 exRec1 []) (by decide)⟩

/-- C8.  The traversal emits entries in recursive post order: a
successful `buildCertificate` run's node sequence is exactly the
post-order flattening `postNodes t` of the reconstructed tree `t` (both
children's node entries strictly before the node's own entry, the whole
left subtree before the right subtree), and its leaf sequence is the
corresponding left-to-right flattening `postLeaves t`. -/
theorem claim8_postorder (K : Bytes → Hash) (fuel : Nat) (root : Hash)
    (records : List Record) (cert : Certificate)
    (hok : buildCertificate K fuel root records = .ok cert) :
    ∃ t, toTree (runRecords K records emptySt) fuel root = some t ∧
      cert.leaf = postLeaves t ∧ cert.node = postNodes t := by
  obtain ⟨t, ht, hleaf, hnode, _⟩ := buildCert_ok_toTree hok
  exact ⟨t, ht, hleaf, hnode⟩

theorem claim8_witness :
    buildCertificate toyK 3 [40] [exRec1, exRec2] =
      .ok ⟨[40], [⟨exAddr1, exRew1, 5⟩, ⟨exAddr2, exRew2, 7⟩],
        [⟨[40], [50], [51]⟩], 2, 1⟩ ∧
    ∃ t, toTree (runRecords toyK [exRec1, exRec2] emptySt) 3 [40] = some t ∧
      ([⟨exAddr1, exRew1, 5⟩, ⟨exAddr2, exRew2, 7⟩] : List LeafEntry) = postLeaves t ∧
      ([⟨[40], [50], [51]⟩] : List NodeEntry) = postNodes t :=
  ⟨by decide, claim8_postorder toyK 3 [40] [exRec1, exRec2]
    ⟨[40], [⟨exAddr1, exRew1, 5⟩, ⟨exAddr2, exRew2, 7⟩], [⟨[40], [50], [51]⟩], 2, 1⟩
    (by decide)⟩

theorem claim6_witness :
    (List.replicate 20 1 : Bytes).length = 20 ∧
      (List.replicate 20 2 : Bytes).length = 20 ∧
      300 < 256 ^ 32 ∧
      hash_leaf (fun x => x) (List.replicate 20 1) (List.replicate 20 2) 300 =
        specLeafHash (fun x => x) (List.replicate 20 1) (List.replicate 20 2) 300 :=
  ⟨by decide, by decide, by decide,
    claim6_leaf_hash_spec (fun x => x) (List.replicate 20 1) (List.replicate 20 2) 300
      (by decide) (by decide) (by decide)⟩
